import Mathlib

/-!
Verification of the data-transformation core of the `mn-pulse-alpha` dashboard
(`src/app.js`): normalization to a common 0–100 scale, date-keyed aggregation,
and the year / quarter / month-pair filter pipeline.

JS numbers are modelled as rationals (`ℚ`); ISO date strings (`"YYYY-MM-DD"`)
are modelled as calendar-date triples, whose equality mirrors equality of the
canonical date strings used as object keys, and whose `ts` field mirrors the
numeric timestamp used by the sort comparator `new Date(a.x) - new Date(b.x)`.
JS records are modelled as structures; the optional `color` field of a
normalized series is an `Option`, since only one branch of
`normalizeAndFormatData` (the spread `{...dataset, data: []}`) carries it over.
-/

namespace Pulse

/-- A calendar date: `year` as from `getFullYear()`, `month` 0–11 as from
`getMonth()`, `day` 1–31. Stands for the ISO date string that renders it. -/
structure Date where
  year : Int
  month : Nat
  day : Nat
deriving DecidableEq, Repr

/-- The numeric timestamp key used by the aggregate sort comparator
`new Date(a.x) - new Date(b.x)`: orders dates chronologically. -/
def Date.ts (d : Date) : Int :=
  d.year * 10000 + (d.month : Int) * 100 + (d.day : Int)

/-- One raw point of a metric series: `{ date, value }`. -/
structure DataPoint where
  date : Date
  value : ℚ
deriving DecidableEq, Repr

/-- One loaded metric series: `{ label, color, data }`. -/
structure MetricSeries where
  label : String
  color : String
  data : List DataPoint
deriving DecidableEq, Repr

/-- One output point of `normalizeAndFormatData`:
`{ x: point.date, y: normalizedValue, originalValue: point.value }`. -/
structure NormalizedPoint where
  x : Date
  y : ℚ
  originalValue : ℚ
deriving DecidableEq, Repr

/-- One output series of `normalizeAndFormatData`. The non-empty branch
builds the literal `{ label, data }`; the empty branch spreads the source
(`{ ...dataset, data: [] }`), so `color` is present exactly there. -/
structure NormalizedSeries where
  label : String
  color : Option String
  data : List NormalizedPoint
deriving DecidableEq, Repr

/-- One point of the aggregate series: `{ x: date, y: sum }`. -/
structure AggregatePoint where
  x : Date
  y : ℚ
deriving DecidableEq, Repr

/-- `Math.min(...values)` on a non-empty argument list (the `[]` case is
unreachable: `normalizeAndFormatData` returns early on empty data). -/
def minVal : List ℚ → ℚ
  | [] => 0
  | [a] => a
  | a :: b :: rest => min a (minVal (b :: rest))

/-- `Math.max(...values)` on a non-empty argument list (the `[]` case is
unreachable: `normalizeAndFormatData` returns early on empty data). -/
def maxVal : List ℚ → ℚ
  | [] => 0
  | [a] => a
  | a :: b :: rest => max a (maxVal (b :: rest))

/-- The per-series body of `normalizeAndFormatData` (`src/app.js` 151–182):
early return `{ ...dataset, data: [] }` on empty data, otherwise min–max
scaling of each value to 0–100, with `50` when the range is zero. -/
def normalizeSeries (dataset : MetricSeries) : NormalizedSeries :=
  if dataset.data.length = 0 then
    { label := dataset.label, color := some dataset.color, data := [] }
  else
    let values := dataset.data.map (·.value)
    let mn := minVal values
    let mx := maxVal values
    let range := mx - mn
    let normalizedData := dataset.data.map (fun point =>
      let normalizedValue : ℚ :=
        if range = 0 then 50 else ((point.value - mn) / range) * 100
      { x := point.date, y := normalizedValue, originalValue := point.value })
    { label := dataset.label, color := none, data := normalizedData }

/-- `normalizeAndFormatData` (`src/app.js` 151–182): normalize each series
independently. -/
def normalizeAndFormatData (datasets : List MetricSeries) : List NormalizedSeries :=
  datasets.map normalizeSeries

/-- `getQuarter` (`src/app.js` 80–83): `Math.floor(month / 3) + 1` on the
0-indexed month. -/
def getQuarter (date : Date) : Nat :=
  date.month / 3 + 1

/-- The `dateMap[point.x] = (dateMap[point.x] || 0) + point.y` update of
`createAggregateData`: JS object keys keep insertion order, so the map is an
association list where a fresh key is appended at the end. -/
def insertPoint (m : List (Date × ℚ)) (d : Date) (v : ℚ) : List (Date × ℚ) :=
  match m with
  | [] => [(d, v)]
  | (k, w) :: rest => if k = d then (k, w + v) :: rest else (k, w) :: insertPoint rest d v

/-- The `dateMap` built by the two nested `forEach` loops of
`createAggregateData` (`src/app.js` 190–194). -/
def buildDateMap (normalizedDatasets : List NormalizedSeries) : List (Date × ℚ) :=
  normalizedDatasets.foldl
    (fun m dataset => dataset.data.foldl (fun m point => insertPoint m point.x point.y) m)
    []

/-- `createAggregateData` (`src/app.js` 187–204): build the date-keyed sum
map, turn its entries into points, and stable-sort them by timestamp
(`aggregateData.sort((a, b) => new Date(a.x) - new Date(b.x))`). -/
def createAggregateData (normalizedDatasets : List NormalizedSeries) : List AggregatePoint :=
  let dateMap := buildDateMap normalizedDatasets
  let aggregateData := dateMap.map (fun kv => { x := kv.1, y := kv.2 : AggregatePoint })
  aggregateData.mergeSort (fun a b => a.x.ts ≤ b.x.ts)

/-- The year-filter selection: `"all"` or a concrete year. -/
inductive YearSel where
  | all : YearSel
  | year : Int → YearSel
deriving DecidableEq, Repr

/-- The quarter-filter selection: `"all"` or a quarter number. -/
inductive QuarterSel where
  | all : QuarterSel
  | quarter : Nat → QuarterSel
deriving DecidableEq, Repr

/-- The month-pair selection: `"all"` or a string `"a-b"` holding the two
month indices. -/
inductive MonthSel where
  | all : MonthSel
  | pair : Nat → Nat → MonthSel
deriving DecidableEq, Repr

/-- The three filter controls read at the top of `handleFilterChange`. -/
structure FilterState where
  year : YearSel
  quarter : QuarterSel
  monthPair : MonthSel
deriving DecidableEq, Repr

/-- The three sequential `filter` stages of `handleFilterChange`
(`src/app.js` 432–460): year, then quarter, then month-pair, each a no-op
when its selection is `"all"`. -/
def filterData (fs : FilterState) (points : List DataPoint) : List DataPoint :=
  let afterYear := match fs.year with
    | .all => points
    | .year y => points.filter (fun point => point.date.year = y)
  let afterQuarter := match fs.quarter with
    | .all => afterYear
    | .quarter q => afterYear.filter (fun point => getQuarter point.date = q)
  match fs.monthPair with
  | .all => afterQuarter
  | .pair monthStart monthEnd =>
      afterQuarter.filter (fun point =>
        point.date.month = monthStart ∨ point.date.month = monthEnd)

/-- The per-dataset loop of `handleFilterChange`: each source series is
replaced by `{ ...originalDataset, data: filteredData }`. -/
def applyFilters (fs : FilterState) (datasets : List MetricSeries) : List MetricSeries :=
  datasets.map (fun dataset => { dataset with data := filterData fs dataset.data })

/-- The recomputation performed by `handleFilterChange` (`src/app.js`
423–484): filter the source datasets, re-normalize, re-aggregate. -/
def handleFilterChange (fs : FilterState) (sourceDatasets : List MetricSeries) :
    List MetricSeries × List NormalizedSeries × List AggregatePoint :=
  let filteredDatasets := applyFilters fs sourceDatasets
  let normalizedDatasets := normalizeAndFormatData filteredDatasets
  (filteredDatasets, normalizedDatasets, createAggregateData normalizedDatasets)

/-- The application state around `handleFilterChange`: the loaded source
(`allData.datasets`) plus the data currently handed to the charts. -/
structure AppState where
  source : List MetricSeries
  displayedFiltered : List MetricSeries
  displayedNormalized : List NormalizedSeries
  displayedAggregate : List AggregatePoint
deriving DecidableEq, Repr

/-- One filter-change event: `handleFilterChange` recomputes the displayed
data from `allData.datasets` and leaves the source untouched. -/
def stepFilterChange (fs : FilterState) (s : AppState) : AppState :=
  let r := handleFilterChange fs s.source
  { source := s.source
    displayedFiltered := r.1
    displayedNormalized := r.2.1
    displayedAggregate := r.2.2 }

/-! ### Helper lemmas: `Math.min` / `Math.max` over a value list -/

theorem minVal_le : ∀ {l : List ℚ} {v : ℚ}, v ∈ l → minVal l ≤ v
  | [a], v, hv => by
      simp only [List.mem_singleton] at hv
      simp [minVal, hv]
  | a :: b :: rest, v, hv => by
      simp only [minVal]
      rcases List.mem_cons.mp hv with h | h
      · subst h; exact min_le_left _ _
      · exact le_trans (min_le_right _ _) (minVal_le h)

theorem le_maxVal : ∀ {l : List ℚ} {v : ℚ}, v ∈ l → v ≤ maxVal l
  | [a], v, hv => by
      simp only [List.mem_singleton] at hv
      simp [maxVal, hv]
  | a :: b :: rest, v, hv => by
      simp only [maxVal]
      rcases List.mem_cons.mp hv with h | h
      · subst h; exact le_max_left _ _
      · exact le_trans (le_maxVal h) (le_max_right _ _)

theorem minVal_mem : ∀ {l : List ℚ}, l ≠ [] → minVal l ∈ l
  | [a], _ => by simp [minVal]
  | a :: b :: rest, _ => by
      simp only [minVal]
      rcases min_cases a (minVal (b :: rest)) with ⟨h, _⟩ | ⟨h, _⟩
      · rw [h]; exact List.mem_cons_self _ _
      · rw [h]; exact List.mem_cons_of_mem _ (minVal_mem (by simp))

theorem maxVal_mem : ∀ {l : List ℚ}, l ≠ [] → maxVal l ∈ l
  | [a], _ => by simp [maxVal]
  | a :: b :: rest, _ => by
      simp only [maxVal]
      rcases max_cases a (maxVal (b :: rest)) with ⟨h, _⟩ | ⟨h, _⟩
      · rw [h]; exact List.mem_cons_self _ _
      · rw [h]; exact List.mem_cons_of_mem _ (maxVal_mem (by simp))

theorem filterData_nil (fs : FilterState) : filterData fs [] = [] := by
  rcases fs with ⟨y, q, m⟩
  cases y <;> cases q <;> cases m <;> simp [filterData]

/-- The scenario series of spec §8:
`[{date:"2023-01-01",value:10},{date:"2023-06-01",value:30},{date:"2023-12-01",value:20}]`. -/
def dsA : MetricSeries :=
  { label := "m", color := "red",
    data := [⟨⟨2023, 0, 1⟩, 10⟩, ⟨⟨2023, 5, 1⟩, 30⟩, ⟨⟨2023, 11, 1⟩, 20⟩] }

/-! ### Claims about the normalizer -/

/-- C1: for a series whose values are not all equal (`max > min`),
`normalizeAndFormatData` maps each value `v` to `(v - min) / (max - min) * 100`;
all normalized values lie in `[0, 100]`, min-value points map to `0`, and
max-value points map to `100`. -/
theorem claim_C1 (ds : MetricSeries) (hne : ds.data ≠ [])
    (hlt : minVal (ds.data.map (fun p => p.value)) < maxVal (ds.data.map (fun p => p.value))) :
    (normalizeSeries ds).data
      = ds.data.map (fun p =>
          { x := p.date
            y := (p.value - minVal (ds.data.map (fun p => p.value)))
                  / (maxVal (ds.data.map (fun p => p.value))
                      - minVal (ds.data.map (fun p => p.value))) * 100
            originalValue := p.value }) ∧
    (∀ np ∈ (normalizeSeries ds).data, 0 ≤ np.y ∧ np.y ≤ 100) ∧
    (∀ np ∈ (normalizeSeries ds).data,
      (np.originalValue = minVal (ds.data.map (fun p => p.value)) → np.y = 0) ∧
      (np.originalValue = maxVal (ds.data.map (fun p => p.value)) → np.y = 100)) := by
  set mn := minVal (ds.data.map (fun p => p.value)) with hmn
  set mx := maxVal (ds.data.map (fun p => p.value)) with hmx
  have hlen : ¬ ds.data.length = 0 := by simpa [List.length_eq_zero] using hne
  have hpos : 0 < mx - mn := sub_pos.mpr hlt
  have hrange : mx - mn ≠ 0 := ne_of_gt hpos
  have hdata : (normalizeSeries ds).data
      = ds.data.map (fun p =>
          { x := p.date, y := (p.value - mn) / (mx - mn) * 100, originalValue := p.value }) := by
    simp only [normalizeSeries, if_neg hlen]
    exact List.map_congr_left fun p _ => by simp [if_neg hrange, hmn, hmx]
  refine ⟨hdata, ?_, ?_⟩
  · intro np hnp
    rw [hdata] at hnp
    obtain ⟨p, hp, rfl⟩ := List.mem_map.mp hnp
    have h1 : mn ≤ p.value := minVal_le (List.mem_map_of_mem _ hp)
    have h2 : p.value ≤ mx := le_maxVal (List.mem_map_of_mem _ hp)
    constructor
    · exact mul_nonneg (div_nonneg (sub_nonneg.mpr h1) hpos.le) (by norm_num)
    · have hd1 : (p.value - mn) / (mx - mn) ≤ 1 :=
        (div_le_one hpos).mpr (sub_le_sub_right h2 mn)
      calc (p.value - mn) / (mx - mn) * 100 ≤ 1 * 100 :=
            mul_le_mul_of_nonneg_right hd1 (by norm_num)
        _ = 100 := by norm_num
  · intro np hnp
    rw [hdata] at hnp
    obtain ⟨p, hp, rfl⟩ := List.mem_map.mp hnp
    constructor
    · intro h0
      simp only at h0
      simp [h0]
    · intro h0
      simp only at h0
      simp [h0, div_self hrange]

theorem claim_C1_witness :
    ({ x := ⟨2023, 5, 1⟩, y := 100, originalValue := 30 } : NormalizedPoint).y = 100 :=
  ((claim_C1 dsA (by simp [dsA]) (by norm_num [dsA, minVal, maxVal])).2.2 _
    (by norm_num [normalizeSeries, dsA, minVal, maxVal])).2
    (by norm_num [dsA, minVal, maxVal])

/-- C3: a non-empty series whose values are all identical (zero range) gets
every normalized value equal to `50`. -/
theorem claim_C3 (ds : MetricSeries) (hne : ds.data ≠ [])
    (hc : ∀ p ∈ ds.data, ∀ q ∈ ds.data, p.value = q.value) :
    ∀ np ∈ (normalizeSeries ds).data, np.y = 50 := by
  intro np hnp
  have hlen : ¬ ds.data.length = 0 := by simpa [List.length_eq_zero] using hne
  have hvne : ds.data.map (fun p => p.value) ≠ [] := by simpa using hne
  obtain ⟨p, hp, hpv⟩ := List.mem_map.mp (minVal_mem hvne)
  obtain ⟨q, hq, hqv⟩ := List.mem_map.mp (maxVal_mem hvne)
  have hr : maxVal (ds.data.map (fun p => p.value))
      - minVal (ds.data.map (fun p => p.value)) = 0 := by
    rw [← hpv, ← hqv, hc q hq p hp]; ring
  simp only [normalizeSeries, if_neg hlen] at hnp
  obtain ⟨r, _, rfl⟩ := List.mem_map.mp hnp
  simp [hr]

theorem claim_C3_witness :
    ({ x := ⟨2023, 0, 1⟩, y := 50, originalValue := 7 } : NormalizedPoint).y = 50 :=
  claim_C3 { label := "m", color := "c", data := [⟨⟨2023, 0, 1⟩, 7⟩, ⟨⟨2023, 5, 1⟩, 7⟩] }
    (by simp) (by norm_num)
    _ (by norm_num [normalizeSeries, minVal, maxVal])

/-- C5: a series with zero points normalizes to a valid result with empty
data, and a series emptied by any filter state still flows through
normalization to an empty data sequence. -/
theorem claim_C5 (ds : MetricSeries) (h : ds.data = []) :
    (normalizeSeries ds).data = [] ∧
    (∀ fs : FilterState, (normalizeSeries { ds with data := filterData fs ds.data }).data = []) := by
  constructor
  · simp [normalizeSeries, h]
  · intro fs
    rw [h, filterData_nil]
    simp [normalizeSeries]

theorem claim_C5_witness :
    (normalizeSeries { label := "m", color := "c", data := [] }).data = [] :=
  (claim_C5 { label := "m", color := "c", data := [] } rfl).1

/-- C6 counterexample: on an empty series the `{ ...dataset, data: [] }`
branch retains the source's `color` field, so the output is not a record of
exactly the fields `label` and `data`. -/
theorem claim_C6_counterexample :
    (normalizeSeries { label := "m", color := "red", data := [] }).color ≠ none := by
  simp [normalizeSeries]

/-- C6 (amended): the output preserves the label and carries each original
value alongside; for a non-empty series the output is exactly `{ label,
data }` (no `color`), while for an empty series the source's `color` field
is additionally retained by the object spread. -/
theorem claim_C6 (ds : MetricSeries) :
    (normalizeSeries ds).label = ds.label ∧
    (normalizeSeries ds).data.map (fun np => (np.x, np.originalValue))
      = ds.data.map (fun p => (p.date, p.value)) ∧
    (ds.data ≠ [] → (normalizeSeries ds).color = none) ∧
    (ds.data = [] → (normalizeSeries ds).color = some ds.color) := by
  by_cases hd : ds.data = []
  · simp [normalizeSeries, hd]
  · have hlen : ¬ ds.data.length = 0 := by simpa [List.length_eq_zero] using hd
    refine ⟨?_, ?_, fun _ => ?_, fun h => absurd h hd⟩
    · simp [normalizeSeries, hd]
    · simp [normalizeSeries, hd, List.map_map, Function.comp]
    · simp [normalizeSeries, hd]

theorem claim_C6_witness :
    (normalizeSeries dsA).color = none :=
  (claim_C6 dsA).2.2.1 (by simp [dsA])

/-! ### Claims about the filter pipeline -/

/-- C4: a non-`"all"` month-pair selection `(a, b)` keeps exactly the points
whose month index equals `a` or equals `b`; a point whose month lies strictly
between `a` and `b` is removed — an either-endpoint match, not a range. -/
theorem claim_C4 (points : List DataPoint) (a b : Nat) :
    (∀ p : DataPoint,
      p ∈ filterData ⟨.all, .all, .pair a b⟩ points ↔
        p ∈ points ∧ (p.date.month = a ∨ p.date.month = b)) ∧
    (∀ p ∈ points, a < p.date.month → p.date.month < b →
      p ∉ filterData ⟨.all, .all, .pair a b⟩ points) := by
  constructor
  · intro p
    simp [filterData, List.mem_filter]
  · intro p _ h1 h2 hmem
    simp [filterData, List.mem_filter] at hmem
    rcases hmem.2 with h | h <;> omega

/-- Three points in January, February, March 2023. -/
def ptsB : List DataPoint :=
  [⟨⟨2023, 0, 5⟩, 1⟩, ⟨⟨2023, 1, 5⟩, 2⟩, ⟨⟨2023, 2, 5⟩, 3⟩]

theorem claim_C4_witness :
    (⟨⟨2023, 1, 5⟩, 2⟩ : DataPoint) ∉ filterData ⟨.all, .all, .pair 0 2⟩ ptsB :=
  (claim_C4 ptsB 0 2).2 _ (by simp [ptsB]) (by norm_num) (by norm_num)

/-- C7: the derived quarter is `floor(month / 3) + 1` on the 0-indexed month
(so month 0 ↦ 1, month 5 ↦ 2, month 11 ↦ 4), and a selected quarter `q`
keeps exactly the points whose date derives quarter `q`. -/
theorem claim_C7 :
    (∀ d : Date, getQuarter d = d.month / 3 + 1) ∧
    (∀ (y : Int) (day : Nat),
      getQuarter ⟨y, 0, day⟩ = 1 ∧ getQuarter ⟨y, 5, day⟩ = 2 ∧ getQuarter ⟨y, 11, day⟩ = 4) ∧
    (∀ (q : Nat) (points : List DataPoint) (p : DataPoint),
      p ∈ filterData ⟨.all, .quarter q, .all⟩ points ↔
        p ∈ points ∧ getQuarter p.date = q) := by
  refine ⟨fun d => rfl, fun y day => by refine ⟨?_, ?_, ?_⟩ <;> simp [getQuarter], ?_⟩
  intro q points p
  simp [filterData, List.mem_filter]

/-- C8: a filter change recomputes the displayed data from the pristine
source and leaves the source untouched; recomputing after an earlier filter
change gives exactly what recomputing directly from the source gives. -/
theorem claim_C8 (fs1 fs2 : FilterState) (s : AppState) :
    (stepFilterChange fs1 s).source = s.source ∧
    stepFilterChange fs2 (stepFilterChange fs1 s) = stepFilterChange fs2 s :=
  ⟨rfl, rfl⟩

/-- C10: the year/quarter/month-pair filter pipeline is idempotent, on one
point list and on a whole set of source series. -/
theorem claim_C10 (fs : FilterState) (points : List DataPoint)
    (datasets : List MetricSeries) :
    filterData fs (filterData fs points) = filterData fs points ∧
    applyFilters fs (applyFilters fs datasets) = applyFilters fs datasets := by
  have hfd : ∀ l : List DataPoint, filterData fs (filterData fs l) = filterData fs l := by
    intro l
    rcases fs with ⟨y, q, m⟩
    cases y <;> cases q <;> cases m <;>
      simp only [filterData, List.filter_filter] <;>
      first
      | rfl
      | exact List.filter_congr fun p hp => by
          simp only [← Bool.decide_and, decide_eq_decide]
          tauto
  refine ⟨hfd points, ?_⟩
  simp only [applyFilters, List.map_map]
  exact List.map_congr_left fun ds _ => by simp [Function.comp, hfd]

/-! ### Helper lemmas: the `dateMap` of `createAggregateData` -/

/-- The total value stored (or, before insertion, summed) at key `d` of an
association list. When the keys are distinct this is the single entry at `d`,
or `0` when `d` is absent — exactly `dateMap[d] || 0`. -/
def valAt (m : List (Date × ℚ)) (d : Date) : ℚ :=
  ((m.filter (fun kv => kv.1 = d)).map Prod.snd).sum

theorem valAt_nil (d : Date) : valAt [] d = 0 := rfl

theorem valAt_cons (k : Date) (w : ℚ) (rest : List (Date × ℚ)) (d : Date) :
    valAt ((k, w) :: rest) d = (if k = d then w else 0) + valAt rest d := by
  by_cases h : k = d <;> simp [valAt, List.filter_cons, h]

theorem valAt_insertPoint (m : List (Date × ℚ)) (d : Date) (v : ℚ) (d' : Date) :
    valAt (insertPoint m d v) d' = valAt m d' + (if d' = d then v else 0) := by
  induction m with
  | nil =>
      simp only [insertPoint]
      rw [valAt_cons, valAt_nil]
      by_cases h : d' = d
      · simp [h]
      · simp [h, Ne.symm h]
  | cons kv rest ih =>
      obtain ⟨k, w⟩ := kv
      simp only [insertPoint]
      by_cases hk : k = d
      · rw [if_pos hk, valAt_cons, valAt_cons]
        subst hk
        split_ifs with h1 h2 h2
        · ring
        · exact absurd h1.symm h2
        · exact absurd h2.symm h1
        · ring
      · rw [if_neg hk, valAt_cons, valAt_cons, ih]
        ring

theorem mem_keys_insertPoint (m : List (Date × ℚ)) (d : Date) (v : ℚ) (d' : Date) :
    d' ∈ (insertPoint m d v).map Prod.fst ↔ d' ∈ m.map Prod.fst ∨ d' = d := by
  induction m with
  | nil => simp [insertPoint]
  | cons kv rest ih =>
      obtain ⟨k, w⟩ := kv
      simp only [insertPoint]
      by_cases hk : k = d
      · rw [if_pos hk]
        subst hk
        simp
        tauto
      · rw [if_neg hk]
        simp [ih]
        tauto

theorem nodup_keys_insertPoint (m : List (Date × ℚ)) (d : Date) (v : ℚ)
    (h : (m.map Prod.fst).Nodup) : ((insertPoint m d v).map Prod.fst).Nodup := by
  induction m with
  | nil => simp [insertPoint]
  | cons kv rest ih =>
      obtain ⟨k, w⟩ := kv
      simp only [List.map_cons, List.nodup_cons] at h
      simp only [insertPoint]
      by_cases hk : k = d
      · rw [if_pos hk]
        simp only [List.map_cons, List.nodup_cons]
        exact ⟨h.1, h.2⟩
      · rw [if_neg hk]
        simp only [List.map_cons, List.nodup_cons]
        refine ⟨fun hc => ?_, ih h.2⟩
        rcases (mem_keys_insertPoint rest d v k).mp hc with hm | he
        · exact h.1 hm
        · exact hk he

theorem valAt_eq_zero_of_not_mem_keys {m : List (Date × ℚ)} {d : Date}
    (h : d ∉ m.map Prod.fst) : valAt m d = 0 := by
  induction m with
  | nil => rfl
  | cons kv rest ih =>
      obtain ⟨k, w⟩ := kv
      simp only [List.map_cons, List.mem_cons] at h
      push_neg at h
      rw [valAt_cons, if_neg (fun he => h.1 he.symm), ih h.2]
      ring

theorem valAt_of_mem_nodup {m : List (Date × ℚ)} {k : Date} {v : ℚ}
    (hnd : (m.map Prod.fst).Nodup) (hm : (k, v) ∈ m) : valAt m k = v := by
  induction m with
  | nil => cases hm
  | cons kv rest ih =>
      obtain ⟨k', w⟩ := kv
      simp only [List.map_cons, List.nodup_cons] at hnd
      rcases List.mem_cons.mp hm with h | h
      · obtain ⟨hk, hv⟩ := Prod.mk.injEq .. ▸ h.symm
        subst hk
        rw [valAt_cons, if_pos rfl,
          valAt_eq_zero_of_not_mem_keys hnd.1, hv]
        ring
      · have hk' : ¬ k' = k := fun he => hnd.1 (he ▸ List.mem_map_of_mem Prod.fst h)
        rw [valAt_cons, if_neg hk', ih hnd.2 h]
        ring

/-- The inner `forEach` of `createAggregateData`: insert every point of one
normalized series into the date map. -/
def insertAll (m : List (Date × ℚ)) (ps : List NormalizedPoint) : List (Date × ℚ) :=
  ps.foldl (fun m p => insertPoint m p.x p.y) m

theorem insertAll_append (m : List (Date × ℚ)) (xs ys : List NormalizedPoint) :
    insertAll m (xs ++ ys) = insertAll (insertAll m xs) ys := by
  simp [insertAll, List.foldl_append]

theorem valAt_insertAll (m : List (Date × ℚ)) (ps : List NormalizedPoint) (d : Date) :
    valAt (insertAll m ps) d
      = valAt m d + ((ps.filter (fun p => p.x = d)).map (fun p => p.y)).sum := by
  induction ps generalizing m with
  | nil => simp [insertAll]
  | cons p rest ih =>
      simp only [insertAll, List.foldl_cons] at ih ⊢
      rw [ih (insertPoint m p.x p.y), valAt_insertPoint, List.filter_cons]
      by_cases h : p.x = d
      · subst h
        simp
        ring
      · have h2 : ¬ d = p.x := fun he => h he.symm
        simp [h, h2]

theorem mem_keys_insertAll (m : List (Date × ℚ)) (ps : List NormalizedPoint) (d : Date) :
    d ∈ (insertAll m ps).map Prod.fst ↔
      d ∈ m.map Prod.fst ∨ d ∈ ps.map (fun p => p.x) := by
  induction ps generalizing m with
  | nil => simp [insertAll]
  | cons p rest ih =>
      simp only [insertAll, List.foldl_cons] at ih ⊢
      rw [ih (insertPoint m p.x p.y), mem_keys_insertPoint]
      simp only [List.map_cons, List.mem_cons]
      tauto

theorem nodup_keys_insertAll (m : List (Date × ℚ)) (ps : List NormalizedPoint)
    (h : (m.map Prod.fst).Nodup) : ((insertAll m ps).map Prod.fst).Nodup := by
  induction ps generalizing m with
  | nil => simpa [insertAll] using h
  | cons p rest ih =>
      simp only [insertAll, List.foldl_cons] at ih ⊢
      exact ih _ (nodup_keys_insertPoint m p.x p.y h)

theorem buildDateMap_eq (dss : List NormalizedSeries) :
    buildDateMap dss = insertAll [] ((dss.map (fun ds => ds.data)).flatten) := by
  have h : ∀ (dss : List NormalizedSeries) (m : List (Date × ℚ)),
      dss.foldl (fun m dataset => insertAll m dataset.data) m
        = insertAll m ((dss.map (fun ds => ds.data)).flatten) := by
    intro dss
    induction dss with
    | nil => intro m; simp [insertAll]
    | cons ds rest ih =>
        intro m
        simp only [List.foldl_cons, List.map_cons, List.flatten_cons]
        rw [ih, insertAll_append]
  exact h dss []

theorem flatSum_eq (dss : List NormalizedSeries) (d : Date) :
    ((((dss.map (fun ds => ds.data)).flatten).filter (fun p => p.x = d)).map
        (fun p => p.y)).sum
      = (dss.map (fun ds =>
          ((ds.data.filter (fun p => p.x = d)).map (fun p => p.y)).sum)).sum := by
  induction dss with
  | nil => simp
  | cons ds rest ih =>
      simp only [List.map_cons, List.flatten_cons, List.filter_append, List.map_append,
        List.sum_append, List.sum_cons, ih]

theorem valAt_buildDateMap (dss : List NormalizedSeries) (d : Date) :
    valAt (buildDateMap dss) d
      = (dss.map (fun ds =>
          ((ds.data.filter (fun p => p.x = d)).map (fun p => p.y)).sum)).sum := by
  rw [buildDateMap_eq, valAt_insertAll, valAt_nil, flatSum_eq]
  ring

theorem nodup_keys_buildDateMap (dss : List NormalizedSeries) :
    ((buildDateMap dss).map Prod.fst).Nodup := by
  rw [buildDateMap_eq]
  exact nodup_keys_insertAll _ _ (by simp)

theorem mem_keys_buildDateMap (dss : List NormalizedSeries) (d : Date) :
    d ∈ (buildDateMap dss).map Prod.fst ↔
      ∃ ds ∈ dss, d ∈ ds.data.map (fun p => p.x) := by
  rw [buildDateMap_eq, mem_keys_insertAll]
  simp only [List.map_nil, List.not_mem_nil, false_or, List.mem_map, List.mem_flatten]
  constructor
  · rintro ⟨p, ⟨l, ⟨ds, hds, rfl⟩, hpl⟩, rfl⟩
    exact ⟨ds, hds, p, hpl, rfl⟩
  · rintro ⟨ds, hds, p, hp, rfl⟩
    exact ⟨p, ⟨ds.data, ⟨ds, hds, rfl⟩, hp⟩, rfl⟩

theorem sum_filter_eq_of_nodup (ps : List NormalizedPoint)
    (hnd : (ps.map (fun p => p.x)).Nodup) (p : NormalizedPoint) (hp : p ∈ ps) :
    ((ps.filter (fun q => q.x = p.x)).map (fun q => q.y)).sum = p.y := by
  induction ps with
  | nil => cases hp
  | cons q rest ih =>
      simp only [List.map_cons, List.nodup_cons] at hnd
      rcases List.mem_cons.mp hp with h | h
      · subst h
        rw [List.filter_cons, if_pos (by simp)]
        have hrest : rest.filter (fun q' => q'.x = p.x) = [] := by
          rw [List.filter_eq_nil_iff]
          intro a ha
          simp only [decide_eq_true_eq]
          exact fun he => hnd.1 (he ▸ List.mem_map_of_mem _ ha)
        rw [hrest]
        simp
      · rw [List.filter_cons]
        have hq : ¬ q.x = p.x := fun he => hnd.1 (he ▸ List.mem_map_of_mem (fun r => r.x) h)
        rw [if_neg (by simpa using hq)]
        exact ih hnd.2 h

/-! ### Claims about the aggregator -/

/-- C2: `createAggregateData` has one point per distinct date key appearing
in any series; its value is the sum of the contributions of exactly the
series having a point on that key (a series contributes the sum of its
matching points, which under within-series date uniqueness is its unique
point's value, and `0` when it has no matching point); the output is sorted
ascending by chronological timestamp order. -/
theorem claim_C2 (dss : List NormalizedSeries)
    (hnd : ∀ ds ∈ dss, (ds.data.map (fun p => p.x)).Nodup) :
    ((createAggregateData dss).map (fun ap => ap.x)).Nodup ∧
    (∀ d : Date,
      d ∈ (createAggregateData dss).map (fun ap => ap.x) ↔
        ∃ ds ∈ dss, d ∈ ds.data.map (fun p => p.x)) ∧
    (∀ ap ∈ createAggregateData dss,
      ap.y = (dss.map (fun ds =>
        ((ds.data.filter (fun p => p.x = ap.x)).map (fun p => p.y)).sum)).sum) ∧
    (∀ ds ∈ dss, ∀ p ∈ ds.data,
      ((ds.data.filter (fun q => q.x = p.x)).map (fun q => q.y)).sum = p.y) ∧
    (createAggregateData dss).Pairwise (fun a b => a.x.ts ≤ b.x.ts) := by
  have hperm : (createAggregateData dss).Perm
      ((buildDateMap dss).map (fun kv => ({ x := kv.1, y := kv.2 } : AggregatePoint))) := by
    unfold createAggregateData
    exact List.mergeSort_perm _ _
  have hkeys : ((buildDateMap dss).map
        (fun kv => ({ x := kv.1, y := kv.2 } : AggregatePoint))).map (fun ap => ap.x)
      = (buildDateMap dss).map Prod.fst := by
    simp [List.map_map, Function.comp]
  refine ⟨?_, ?_, ?_, ?_, ?_⟩
  · exact ((hperm.map (fun ap => ap.x)).nodup_iff).mpr
      (hkeys ▸ nodup_keys_buildDateMap dss)
  · intro d
    rw [(hperm.map (fun ap => ap.x)).mem_iff, hkeys, mem_keys_buildDateMap]
  · intro ap hap
    obtain ⟨kv, hkv, hap_eq⟩ := List.mem_map.mp (hperm.mem_iff.mp hap)
    obtain ⟨k, v⟩ := kv
    subst hap_eq
    have hv : valAt (buildDateMap dss) k = v :=
      valAt_of_mem_nodup (nodup_keys_buildDateMap dss) hkv
    rw [valAt_buildDateMap] at hv
    exact hv.symm
  · intro ds hds p hp
    exact sum_filter_eq_of_nodup ds.data (hnd ds hds) p hp
  · have hs := @List.sorted_mergeSort AggregatePoint
      (fun a b : AggregatePoint => decide (a.x.ts ≤ b.x.ts))
      (fun a b c hab hbc => by
        simp only [decide_eq_true_eq] at *
        exact le_trans hab hbc)
      (fun a b => by
        simp only [Bool.or_eq_true, decide_eq_true_eq]
        exact le_total _ _)
      ((buildDateMap dss).map (fun kv => ({ x := kv.1, y := kv.2 } : AggregatePoint)))
    unfold createAggregateData
    exact hs.imp (fun h => of_decide_eq_true h)

/-- A normalized series with one point on 2023-01-01 of value 0. -/
def nsA : NormalizedSeries :=
  { label := "a", color := none, data := [⟨⟨2023, 0, 1⟩, 0, 10⟩] }

/-- A normalized series with one point on 2023-01-01 of value 100. -/
def nsB : NormalizedSeries :=
  { label := "b", color := none, data := [⟨⟨2023, 0, 1⟩, 100, 99⟩] }

theorem claim_C2_witness :
    (⟨2023, 0, 1⟩ : Date) ∈ (createAggregateData [nsA, nsB]).map (fun ap => ap.x) :=
  ((claim_C2 [nsA, nsB] (by simp [nsA, nsB])).2.1 ⟨2023, 0, 1⟩).mpr
    ⟨nsA, by simp, by simp [nsA]⟩

/-- The total aggregated value at date `d`: the sum of the `y` values of the
aggregate points on `d` (the single one, since keys are distinct). -/
def aggValueAt (out : List AggregatePoint) (d : Date) : ℚ :=
  ((out.filter (fun ap => ap.x = d)).map (fun ap => ap.y)).sum

theorem aggValueAt_createAggregateData (dss : List NormalizedSeries) (d : Date) :
    aggValueAt (createAggregateData dss) d
      = (dss.map (fun ds =>
          ((ds.data.filter (fun p => p.x = d)).map (fun p => p.y)).sum)).sum := by
  have hperm : (createAggregateData dss).Perm
      ((buildDateMap dss).map (fun kv => ({ x := kv.1, y := kv.2 } : AggregatePoint))) := by
    unfold createAggregateData
    exact List.mergeSort_perm _ _
  have h1 : aggValueAt (createAggregateData dss) d
      = aggValueAt ((buildDateMap dss).map
          (fun kv => ({ x := kv.1, y := kv.2 } : AggregatePoint))) d :=
    ((hperm.filter _).map _).sum_eq
  have h2 : aggValueAt ((buildDateMap dss).map
        (fun kv => ({ x := kv.1, y := kv.2 } : AggregatePoint))) d
      = valAt (buildDateMap dss) d := by
    unfold aggValueAt valAt
    rw [List.filter_map, List.map_map]
    rfl
  rw [h1, h2, valAt_buildDateMap]

/-- C9: aggregation is commutative and associative over the set of series:
for every date, aggregating `{A, B}` and `{C}` separately and summing the
two results equals aggregating `{A, B, C}` directly, and the aggregated
value is invariant under reordering of the series. -/
theorem claim_C9 :
    (∀ (A B C : NormalizedSeries) (d : Date),
      aggValueAt (createAggregateData [A, B]) d
          + aggValueAt (createAggregateData [C]) d
        = aggValueAt (createAggregateData [A, B, C]) d) ∧
    (∀ (dss dss' : List NormalizedSeries), dss.Perm dss' → ∀ d : Date,
      aggValueAt (createAggregateData dss) d
        = aggValueAt (createAggregateData dss') d) := by
  constructor
  · intro A B C d
    rw [aggValueAt_createAggregateData, aggValueAt_createAggregateData,
      aggValueAt_createAggregateData]
    simp only [List.map_cons, List.map_nil, List.sum_cons, List.sum_nil]
    ring
  · intro dss dss' hp d
    rw [aggValueAt_createAggregateData, aggValueAt_createAggregateData]
    exact (hp.map _).sum_eq

theorem claim_C9_witness :
    aggValueAt (createAggregateData [nsA, nsB]) ⟨2023, 0, 1⟩
      = aggValueAt (createAggregateData [nsB, nsA]) ⟨2023, 0, 1⟩ :=
  claim_C9.2 [nsA, nsB] [nsB, nsA] (List.Perm.swap nsB nsA []) ⟨2023, 0, 1⟩

end Pulse
